import Mathlib

/-!
Verification development for `src/bot.py`, a daily quiz-dispatch script.

The script has three parts, embedded below:
  * `parse_mcqs` — parses a text file of multiple-choice questions
    (blocks separated by blank lines) into question records;
  * a progress tracker — reads/writes a single integer cursor in a file
    (`readProgressVal`, the final `writeProgress` effect);
  * a dispatcher (`runQ` / `run`, modelling `main`) — sends one batch of
    quiz polls per run to a fixed recipient list and advances the cursor.

File I/O, the Telegram API and logging are modelled by an explicit effect
trace: `runQ` returns the list of external effects the run performs together
with the final content of the progress file.  Send failures are modelled by
a `FailOracle` deciding which individual API calls raise; a raised-and-caught
send appears in the trace with its `ok` flag set to `false`.

Python primitives used by the script (`str.strip`, `int(...)`, list slicing,
and the three regular expressions) are given explicit executable models;
each is annotated with the source expression it translates.
-/

namespace Bot

/-- The whitespace class used by Python's `str.strip`, `str.split` results
cleanup and the regex `\s` (ASCII range). -/
def isSpace (c : Char) : Bool :=
  c = ' ' || c = '\t' || c = '\n' || c = '\r' || c = '\x0b' || c = '\x0c'

/-- ASCII lower-casing, modelling `str.lower` and `re.IGNORECASE`
comparisons on the characters the script actually matches. -/
def lowerChar (c : Char) : Char :=
  if 'A' ≤ c ∧ c ≤ 'Z' then Char.ofNat (c.toNat + 32) else c

/-- Drop leading whitespace characters. -/
def skipWs : List Char → List Char
  | [] => []
  | c :: cs => if isSpace c then skipWs cs else c :: cs

/-- Python `str.strip()`: remove leading and trailing whitespace. -/
def pyStrip (s : String) : String :=
  String.mk ((skipWs ((skipWs s.data.reverse).reverse)))

/-- Value of a decimal digit character, `none` for non-digits. -/
def digitVal (c : Char) : Option Nat :=
  if '0' ≤ c ∧ c ≤ '9' then some (c.toNat - '0'.toNat) else none

/-- Left fold accumulating a decimal value; `none` on any non-digit. -/
def digitsValAux (acc : Nat) : List Char → Option Nat
  | [] => some acc
  | c :: cs =>
    match digitVal c with
    | some d => digitsValAux (10 * acc + d) cs
    | none => none

/-- Decimal value of a nonempty all-digit character list. -/
def digitsVal (cs : List Char) : Option Nat :=
  match cs with
  | [] => none
  | _ :: _ => digitsValAux 0 cs

/-- Python `int(s)` on an already-stripped string: optional sign followed by
a nonempty digit string; `none` models a raised `ValueError`.  (Digit-group
underscores and non-ASCII digits are not modelled.) -/
def pyInt (s : String) : Option Int :=
  match s.data with
  | [] => none
  | c :: rest =>
    if c = '-' then (digitsVal rest).map (fun n => -(n : Int))
    else if c = '+' then (digitsVal rest).map (fun n => (n : Int))
    else (digitsVal (c :: rest)).map (fun n => (n : Int))

/-- Resolve one endpoint of a Python slice `l[i:j]` of a list of length
`n`: negative indices count from the end, then both ends are clamped. -/
def pySliceIdx (n : Nat) (i : Int) : Nat :=
  if i < 0 then (max (i + n) 0).toNat else min i.toNat n

/-- Python list slice `l[i:j]` (step 1), including negative-index
semantics. -/
def pySlice {α : Type} (l : List α) (i j : Int) : List α :=
  (l.take (pySliceIdx l.length j)).drop (pySliceIdx l.length i)

/-! ### Models of the three regular expressions used by `bot.py` -/

/-- Case-insensitively strip the pattern characters `pat` (given in
lowercase) from the front of the input; returns the remainder on success. -/
def stripCI : List Char → List Char → Option (List Char)
  | [], cs => some cs
  | _ :: _, [] => none
  | p :: ps, c :: cs => if lowerChar c = p then stripCI ps cs else none

/-- Attempt of `re.search(r'Answer:\s*([a-d])', line, re.IGNORECASE)` at the
head of the input: the literal `Answer:` case-insensitively, then greedy
`\s*` (since letters are not whitespace, the only viable stop of the greedy
run is its end), then one letter `a`-`d` in either case.  Returns the
lower-cased captured letter, as `match.group(1).lower()` does. -/
def matchAnswerAt (cs : List Char) : Option Char :=
  match stripCI ['a', 'n', 's', 'w', 'e', 'r', ':'] cs with
  | none => none
  | some rest =>
    match skipWs rest with
    | [] => none
    | c :: _ => if 'a' ≤ lowerChar c ∧ lowerChar c ≤ 'd' then some (lowerChar c) else none

/-- `re.search` scanning: try `matchAnswerAt` at each successive start
position, left to right, returning the first success.  (At the empty
position `matchAnswerAt [] = none`, so the empty case returns it
directly.) -/
def findAnswerAux : List Char → Option Char
  | [] => matchAnswerAt []
  | c :: cs =>
    match matchAnswerAt (c :: cs) with
    | some r => some r
    | none => findAnswerAux cs

/-- `re.search(r'Answer:\s*([a-d])', answer_line, re.IGNORECASE)` followed by
`match.group(1).lower()`; `none` models "no match". -/
def matchAnswer (s : String) : Option Char :=
  findAnswerAux s.data

/-- `re.sub(r'^[a-d]\)\s*', '', line)`: drop a leading lowercase option
label `a)`-`d)` together with the whitespace run after it. -/
def stripLabel (s : String) : String :=
  match s.data with
  | c1 :: c2 :: rest =>
    if ('a' ≤ c1 ∧ c1 ≤ 'd') ∧ c2 = ')' then String.mk (skipWs rest) else s
  | _ => s

/-- Helper for the block separator `\n\s*\n`: given the characters after the
separator's first newline, find the greedy-backtracking end of `\s*\n` — the
position just after the last `'\n'` inside the maximal whitespace run.
Returns the remainder after that newline, or `none` if the run contains no
newline (no match). -/
def lastNlRest : List Char → Option (List Char)
  | [] => none
  | c :: cs =>
    if isSpace c then
      match lastNlRest cs with
      | some r => some r
      | none => if c = '\n' then some cs else none
    else none

/-- A match of the separator regex `\n\s*\n` at the head of the input;
returns the remainder after the (greedy) match. -/
def sepMatch : List Char → Option (List Char)
  | [] => none
  | c :: cs => if c = '\n' then lastNlRest cs else none

theorem lastNlRest_length : ∀ cs r, lastNlRest cs = some r → r.length < cs.length := by
  intro cs
  induction cs with
  | nil => intro r h; simp [lastNlRest] at h
  | cons c cs ih =>
    intro r h
    simp only [lastNlRest] at h
    by_cases hs : isSpace c
    · simp only [hs, if_true] at h
      cases hrec : lastNlRest cs with
      | some r0 =>
        rw [hrec] at h
        simp only at h
        cases h
        exact Nat.lt_trans (ih _ hrec) (Nat.lt_succ_self _)
      | none =>
        rw [hrec] at h
        simp only at h
        by_cases hnl : c = '\n'
        · simp only [hnl, if_true] at h
          cases h
          exact Nat.lt_succ_self _
        · simp [hnl] at h
    · simp [hs] at h

theorem sepMatch_length : ∀ cs r, sepMatch cs = some r → r.length < cs.length := by
  intro cs r h
  cases cs with
  | nil => simp [sepMatch] at h
  | cons c cs =>
    simp only [sepMatch] at h
    by_cases hnl : c = '\n'
    · simp only [hnl, if_true] at h
      exact Nat.lt_trans (lastNlRest_length cs r h) (Nat.lt_succ_self _)
    · simp [hnl] at h

/-- Scanner realising `re.split(r'\n\s*\n', content)`: accumulate the current
piece (reversed) in `acc`, and cut a new piece at each leftmost separator
match, continuing after the matched text. -/
def splitBlocksAux (acc cs : List Char) : List String :=
  match cs with
  | [] => [String.mk acc.reverse]
  | c :: cs' =>
    match hm : sepMatch (c :: cs') with
    | some rest => String.mk acc.reverse :: splitBlocksAux [] rest
    | none => splitBlocksAux (c :: acc) cs'
termination_by cs.length
decreasing_by
  · exact sepMatch_length _ _ hm
  · simp

/-- `re.split(r'\n\s*\n', content.strip())` from `parse_mcqs`. -/
def splitBlocks (content : String) : List String :=
  splitBlocksAux [] (pyStrip content).data

/-! ### The parser `parse_mcqs` -/

/-- A parsed question record, as built by `parse_mcqs`. -/
structure Question where
  question : String
  options : List String
  correct_index : Nat
deriving DecidableEq, Repr

/-- Python `str.split('\n')`: cut at every newline, keeping empty pieces
(`"".split('\n') == [""]`). -/
def splitOnNl : List Char → List (List Char)
  | [] => [[]]
  | c :: rest =>
    match splitOnNl rest with
    | [] => [[]]
    | g :: gs => if c = '\n' then [] :: g :: gs else (c :: g) :: gs

/-- `[line.strip() for line in block.strip().split('\n') if line.strip()]`
(the `lines` local of the parsing loop). -/
def cleanLines (block : String) : List String :=
  (((splitOnNl (pyStrip block).data).map (fun l => pyStrip (String.mk l)))).filter
    (fun l => l ≠ "")

/-- The body of the per-block loop of `parse_mcqs`, acting on the cleaned
`lines`; `none` models `continue` (the block is skipped).  The preliminary
`if not block.strip(): continue` test is subsumed: a whitespace-only block
has no clean lines and is skipped by the length test. -/
def parseBlockLines (lines : List String) : Option Question :=
  if lines.length < 4 then none
  else
    let question := lines.headD ""
    let answer_line := lines.getLastD ""
    match matchAnswer answer_line with
    | none => none
    | some ch =>
      let options := ((lines.drop 1).dropLast).map stripLabel
      if options.length ≠ 4 then none
      else some ⟨question, options, ch.toNat - 'a'.toNat⟩

/-- One iteration of the `parse_mcqs` loop on a raw block. -/
def parseBlock (block : String) : Option Question :=
  parseBlockLines (cleanLines block)

/-- `parse_mcqs`, as a function of the question file's content. -/
def parse_mcqs (content : String) : List Question :=
  (splitBlocks content).filterMap parseBlock

/-- `parse_mcqs` per-block body with Python's fallible list subscripts made
explicit: `lines[0]` and `lines[-1]` raise `IndexError` on an empty list,
modelled by `Except`.  `.ok none` models `continue`. -/
def parseBlockE (block : String) : Except String (Option Question) :=
  let lines := cleanLines block
  if lines.length < 4 then .ok none
  else
    match lines.get? 0 with
    | none => .error "IndexError"
    | some question =>
      match lines.get? (lines.length - 1) with
      | none => .error "IndexError"
      | some answer_line =>
        match matchAnswer answer_line with
        | none => .ok none
        | some ch =>
          let options := ((lines.drop 1).dropLast).map stripLabel
          if options.length ≠ 4 then .ok none
          else .ok (some ⟨question, options, ch.toNat - 'a'.toNat⟩)

/-- The accumulation loop of `parse_mcqs` with fallible subscripts,
propagating a raised exception. -/
def parseBlocksE : List String → Except String (List Question)
  | [] => .ok []
  | b :: bs =>
    match parseBlockE b with
    | .error e => .error e
    | .ok none => parseBlocksE bs
    | .ok (some q) =>
      match parseBlocksE bs with
      | .error e => .error e
      | .ok qs => .ok (q :: qs)

/-- `parse_mcqs` in the exception monad. -/
def parse_mcqsE (content : String) : Except String (List Question) :=
  parseBlocksE (splitBlocks content)

/-! ### The `main` run -/

/-- `CHAT_IDS` from `bot.py`. -/
def CHAT_IDS : List String := ["7695772994", "8070930921"]

/-- `QUESTIONS_PER_DAY` from `bot.py`. -/
def QUESTIONS_PER_DAY : Nat := 20

/-- The fixed completion text sent when all questions have been sent. -/
def completionText : String := "No more questions, we are done! Congratulations!"

/-- An externally visible effect of one run, in order of occurrence.  A
`sendPoll`/`sendMessage` with `ok := false` is an API call that raised and
was caught and logged by the surrounding `try`/`except`. -/
inductive Effect where
  | readQuestionsFile : Effect
  | readProgressFile : Effect
  | sendPoll (chat_id : String) (question : String) (options : List String)
      (correct_option_id : Nat) (ok : Bool) : Effect
  | sendMessage (chat_id : String) (text : String) (ok : Bool) : Effect
  | writeProgress (value : String) : Effect
deriving DecidableEq, Repr

/-- Decides which API calls raise: `pollFails chat i` for the poll of the
`i`-th batch question to `chat`, `msgFails chat` for the completion
message. -/
structure FailOracle where
  pollFails : String → Nat → Bool
  msgFails : String → Bool

/-- The oracle under which every API call succeeds. -/
def noFail : FailOracle := ⟨fun _ _ => false, fun _ => false⟩

/-- `if not BOT_TOKEN`: the token is falsy when the environment variable is
absent (`None`) or the empty string. -/
def tokenFalsy : Option String → Bool
  | none => true
  | some t => t = ""

/-- Step 1 of `main`: the value `start_index` obtained from the progress
file (`none` = file absent, raising `FileNotFoundError`); an unreadable or
empty file yields 0. -/
def readProgressVal : Option String → Int
  | none => 0
  | some content =>
    let c := pyStrip content
    if c = "" then 0
    else
      match pyInt c with
      | some n => n
      | none => 0

/-- The poll prompt `f"({start_index + i + 1}/{total_questions}) {question}"`. -/
def pollText (start : Int) (total : Nat) (i : Nat) (q : String) : String :=
  "(" ++ toString (start + i + 1) ++ "/" ++ toString total ++ ") " ++ q

/-- Step 4 of `main`: the poll-send effects, one per (recipient, batch
question) pair in loop order. -/
def batchPolls (qs : List Question) (start endIdx : Int) (o : FailOracle) : List Effect :=
  CHAT_IDS.flatMap fun chat_id =>
    (pySlice qs start endIdx).enum.map fun p =>
      .sendPoll chat_id (pollText start qs.length p.1 p.2.question) p.2.options
        p.2.correct_index (!o.pollFails chat_id p.1)

/-- `main`, factored over the already-parsed question list: returns the
effect trace and the final content of the progress file. -/
def runQ (token : Option String) (qs : List Question) (progressFile : Option String)
    (o : FailOracle) : List Effect × Option String :=
  if tokenFalsy token then ([], progressFile)
  else
    let total := qs.length
    let start_index := readProgressVal progressFile
    if (total : Int) ≤ start_index then
      ([.readQuestionsFile, .readProgressFile] ++
        CHAT_IDS.map (fun chat_id => .sendMessage chat_id completionText (!o.msgFails chat_id)),
        progressFile)
    else
      let end_index := min (start_index + (QUESTIONS_PER_DAY : Int)) (total : Int)
      ([.readQuestionsFile, .readProgressFile] ++ batchPolls qs start_index end_index o ++
        [.writeProgress (toString end_index)],
        some (toString end_index))

/-- `main`, from the raw content of the question file. -/
def run (token : Option String) (questionsContent : String) (progressFile : Option String)
    (o : FailOracle) : List Effect × Option String :=
  runQ token (parse_mcqs questionsContent) progressFile o

/-- Forget the success flag of a send effect: the effect trace up to
which calls raised. -/
def eraseOk : Effect → Effect
  | .sendPoll c q os i _ => .sendPoll c q os i true
  | .sendMessage c t _ => .sendMessage c t true
  | e => e

/-- Is this effect a quiz-poll send? -/
def Effect.isPoll : Effect → Bool
  | .sendPoll _ _ _ _ _ => true
  | _ => false

/-- Is this effect a write of the progress file? -/
def Effect.isWrite : Effect → Bool
  | .writeProgress _ => true
  | _ => false

/-- Is this effect the fixed completion message to `chat`? -/
def isCompletionTo (chat : String) : Effect → Bool
  | .sendMessage c t _ => c = chat && t = completionText
  | _ => false

/-! ### Decimal round trip: the progress value written by one run is read
back unchanged by the next -/

theorem digitVal_digitChar : ∀ m, m < 10 → digitVal (Nat.digitChar m) = some m := by
  decide

theorem digitsValAux_toDigitsCore :
    ∀ fuel n ds acc, 0 < fuel → n < 10 ^ fuel →
      digitsValAux acc (Nat.toDigitsCore 10 fuel n ds) =
        digitsValAux (acc * 10 ^ (Nat.log 10 n + 1) + n) ds := by
  intro fuel
  induction fuel with
  | zero => intro n ds acc h _; exact absurd h (by omega)
  | succ f ih =>
    intro n ds acc _ hlt
    simp only [Nat.toDigitsCore]
    by_cases h0 : n / 10 = 0
    · have hn10 : n < 10 := by omega
      simp only [h0, if_true]
      have hmod : n % 10 = n := Nat.mod_eq_of_lt hn10
      have hlog : Nat.log 10 n = 0 := Nat.log_eq_zero_iff.mpr (Or.inl hn10)
      simp only [digitsValAux, hmod, digitVal_digitChar n hn10, hlog, pow_one]
      ring_nf
    · have hn10 : 10 ≤ n := by omega
      have hf : 0 < f := by
        rcases Nat.eq_zero_or_pos f with rfl | h
        · simp at hlt; omega
        · exact h
      have hlt' : n / 10 < 10 ^ f := by
        rw [Nat.div_lt_iff_lt_mul (by norm_num)]
        calc n < 10 ^ (f + 1) := hlt
          _ = 10 ^ f * 10 := by rw [pow_succ]
      simp only [h0, if_false]
      rw [ih (n / 10) (Nat.digitChar (n % 10) :: ds) acc hf hlt']
      have hmodlt : n % 10 < 10 := Nat.mod_lt n (by norm_num)
      simp only [digitsValAux, digitVal_digitChar (n % 10) hmodlt]
      congr 1
      have hL : Nat.log 10 (n / 10) = Nat.log 10 n - 1 := Nat.log_div_base 10 n
      have hLpos : 0 < Nat.log 10 n := Nat.log_pos (by norm_num) hn10
      have hL' : Nat.log 10 (n / 10) + 1 = Nat.log 10 n := by omega
      have hdm : 10 * (n / 10) + n % 10 = n := Nat.div_add_mod n 10
      calc 10 * (acc * 10 ^ (Nat.log 10 (n / 10) + 1) + n / 10) + n % 10
          = acc * (10 ^ (Nat.log 10 (n / 10) + 1) * 10) + (10 * (n / 10) + n % 10) := by ring
        _ = acc * 10 ^ (Nat.log 10 n + 1) + n := by rw [hdm, hL', pow_succ]

theorem toDigitsCore_shape :
    ∀ fuel n ds, ∃ c L, Nat.toDigitsCore 10 (fuel + 1) n ds = c :: (L ++ ds) ∧
      (digitVal c).isSome ∧ ∀ x ∈ L, (digitVal x).isSome := by
  intro fuel
  induction fuel with
  | zero =>
    intro n ds
    refine ⟨Nat.digitChar (n % 10), [], ?_, ?_, by simp⟩
    · simp only [Nat.toDigitsCore]
      by_cases h0 : n / 10 = 0 <;> simp [h0, Nat.toDigitsCore]
    · rw [digitVal_digitChar (n % 10) (Nat.mod_lt n (by norm_num))]; rfl
  | succ f ih =>
    intro n ds
    by_cases h0 : n / 10 = 0
    · refine ⟨Nat.digitChar (n % 10), [], ?_, ?_, by simp⟩
      · simp [Nat.toDigitsCore, h0]
      · rw [digitVal_digitChar (n % 10) (Nat.mod_lt n (by norm_num))]; rfl
    · obtain ⟨c, L, heq, hc, hL⟩ := ih (n / 10) (Nat.digitChar (n % 10) :: ds)
      refine ⟨c, L ++ [Nat.digitChar (n % 10)], ?_, hc, ?_⟩
      · have hstep : Nat.toDigitsCore 10 (f + 1 + 1) n ds =
            Nat.toDigitsCore 10 (f + 1) (n / 10) (Nat.digitChar (n % 10) :: ds) := by
          simp only [Nat.toDigitsCore, h0, if_false]
        rw [hstep, heq]; simp
      · intro x hx
        rcases List.mem_append.mp hx with h | h
        · exact hL x h
        · rcases List.mem_singleton.mp h with rfl
          rw [digitVal_digitChar (n % 10) (Nat.mod_lt n (by norm_num))]; rfl

/-- Rebuilding a string from its characters is the identity. -/
theorem mk_data (s : String) : String.mk s.data = s := rfl

/-- The decimal representation of a natural number: its characters are a
nonempty digit list whose accumulated value is the number itself. -/
theorem repr_data (n : Nat) :
    ∃ c L, (Nat.repr n).data = c :: L ∧ (digitVal c).isSome ∧
      (∀ x ∈ L, (digitVal x).isSome) ∧ digitsValAux 0 (c :: L) = some n := by
  obtain ⟨c, L, heq, hc, hL⟩ := toDigitsCore_shape n n []
  have hdata : (Nat.repr n).data = c :: L := by
    simp only [Nat.repr, Nat.toDigits]
    rw [heq]
    simp [List.asString]
  refine ⟨c, L, hdata, hc, hL, ?_⟩
  have hval := digitsValAux_toDigitsCore (n + 1) n [] 0 (Nat.succ_pos n) ?_
  · rw [heq] at hval
    simpa [digitsValAux] using hval
  · calc n < 10 ^ n := Nat.lt_pow_self (by norm_num) n
      _ ≤ 10 ^ (n + 1) := Nat.pow_le_pow_right (by norm_num) (Nat.le_succ n)

/-- A decimal digit character is not whitespace. -/
theorem digit_not_space (c : Char) (h : (digitVal c).isSome) : isSpace c = false := by
  by_contra hc
  have hsp : isSpace c = true := by
    cases hi : isSpace c
    · exact absurd hi hc
    · rfl
  simp only [isSpace, Bool.or_eq_true, decide_eq_true_eq] at hsp
  rcases hsp with ((((h1 | h1) | h1) | h1) | h1) | h1 <;>
    (subst h1; revert h; decide)

/-- A decimal digit character is not a sign character. -/
theorem digit_not_sign (c : Char) (h : (digitVal c).isSome) : c ≠ '-' ∧ c ≠ '+' := by
  constructor <;> (rintro rfl; revert h; decide)

/-- Skipping whitespace leaves an all-digit list unchanged. -/
theorem skipWs_digits (l : List Char) (h : ∀ x ∈ l, (digitVal x).isSome) :
    skipWs l = l := by
  cases l with
  | nil => rfl
  | cons c cs =>
    simp [skipWs, digit_not_space c (h c (List.mem_cons_self c cs))]

theorem pyStrip_repr (n : Nat) : pyStrip (Nat.repr n) = Nat.repr n := by
  obtain ⟨c, L, hdata, hc, hL, _⟩ := repr_data n
  have hall : ∀ x ∈ (Nat.repr n).data, (digitVal x).isSome := by
    rw [hdata]
    intro x hx
    rcases List.mem_cons.mp hx with rfl | hx
    · exact hc
    · exact hL x hx
  have hrev : ∀ x ∈ (Nat.repr n).data.reverse, (digitVal x).isSome := by
    intro x hx
    exact hall x (List.mem_reverse.mp hx)
  unfold pyStrip
  rw [skipWs_digits _ hrev, List.reverse_reverse, skipWs_digits _ hall, mk_data]

theorem pyInt_repr (n : Nat) : pyInt (Nat.repr n) = some (n : Int) := by
  obtain ⟨c, L, hdata, hc, hL, hval⟩ := repr_data n
  obtain ⟨hm, hp⟩ := digit_not_sign c hc
  unfold pyInt
  rw [hdata]
  simp only [hm, hp, if_false]
  have : digitsVal (c :: L) = some n := hval
  rw [this]
  rfl

theorem repr_ne_empty (n : Nat) : Nat.repr n ≠ "" := by
  obtain ⟨c, L, hdata, _, _, _⟩ := repr_data n
  intro h
  rw [h] at hdata
  exact List.noConfusion hdata

theorem readProgressVal_some (s : String) :
    readProgressVal (some s) =
      if pyStrip s = "" then 0
      else
        match pyInt (pyStrip s) with
        | some n => n
        | none => 0 := rfl

theorem readProgressVal_repr (n : Nat) : readProgressVal (some (Nat.repr n)) = (n : Int) := by
  rw [readProgressVal_some, pyStrip_repr]
  simp only [repr_ne_empty n, if_false]
  rw [pyInt_repr]

/-- The progress value written at the end of a batch run (a nonnegative
integer rendered with `toString`) is read back unchanged. -/
theorem readProgressVal_toString_int (e : Int) (he : 0 ≤ e) :
    readProgressVal (some (toString e)) = e := by
  have h1 : toString e = Nat.repr e.toNat := by
    have : e = Int.ofNat e.toNat := (Int.toNat_of_nonneg he).symm
    rw [this]
    rfl
  rw [h1, readProgressVal_repr, Int.toNat_of_nonneg he]

/-! ### Facts about slices and the batch branch -/

theorem pySlice_nonneg (l : List Question) (a m : Nat) (hm : m ≤ l.length) :
    pySlice l (a : Int) ((m : Nat) : Int) = (l.take m).drop a := by
  unfold pySlice pySliceIdx
  have h1 : ¬((a : Int) < 0) := by omega
  have h2 : ¬(((m : Nat) : Int) < 0) := by omega
  simp only [h1, h2, if_false, Int.toNat_ofNat, Int.toNat_natCast]
  rw [Nat.min_eq_left hm]
  rcases Nat.le_total a l.length with h | h
  · rw [Nat.min_eq_left h]
  · rw [Nat.min_eq_right h]
    have hlen : (l.take m).length = m := by rw [List.length_take, Nat.min_eq_left hm]
    rw [List.drop_eq_nil_of_le (by omega), List.drop_eq_nil_of_le (by omega)]

/-- Unfolding of the batch branch of `runQ`: token truthy and
`start_index < total`. -/
theorem runQ_batch (t : String) (qs : List Question) (pf : Option String) (o : FailOracle)
    (ht : t ≠ "") (hlt : readProgressVal pf < (qs.length : Int)) :
    runQ (some t) qs pf o =
      ([.readQuestionsFile, .readProgressFile] ++
        batchPolls qs (readProgressVal pf)
          (min (readProgressVal pf + 20) (qs.length : Int)) o ++
        [.writeProgress (toString (min (readProgressVal pf + 20) (qs.length : Int)))],
        some (toString (min (readProgressVal pf + 20) (qs.length : Int)))) := by
  unfold runQ
  have htf : tokenFalsy (some t) = false := by simp [tokenFalsy, ht]
  rw [htf]
  simp only [Bool.false_eq_true, if_false]
  have hnle : ¬((qs.length : Int) ≤ readProgressVal pf) := by omega
  simp only [hnle, if_false, QUESTIONS_PER_DAY, Nat.cast_ofNat]

/-! ### Claim theorems -/

/-- C1: for every parsed question list of length `total` and every cursor
`c` with `0 ≤ c < total` stored in the cursor file as its decimal string,
the dispatcher's trace consists of the reads, then for each recipient
exactly the poll sends of the batch — which is precisely the sublist of
questions with indices in `[c, min (c+20) total)` — and finally a write of
the cursor file, whose content afterwards is the decimal string of
`min (c+20) total`; in particular cursor `40` with 90 questions yields the
batch of indices 40..59 and post-run cursor `60` (see the witness). -/
theorem batch_window_correct (qs : List Question) (c : Nat) (t : String) (o : FailOracle)
    (ht : t ≠ "") (hc : c < qs.length) :
    runQ (some t) qs (some (toString c)) o =
      ([.readQuestionsFile, .readProgressFile] ++
        batchPolls qs (c : Int) (((min (c + 20) qs.length : Nat) : Int)) o ++
        [.writeProgress (toString ((min (c + 20) qs.length : Nat)))],
        some (toString ((min (c + 20) qs.length : Nat)))) ∧
    pySlice qs (c : Int) (((min (c + 20) qs.length : Nat) : Int)) = (qs.take (min (c + 20) qs.length)).drop c ∧
    ((qs.take (min (c + 20) qs.length)).drop c).length = min (c + 20) qs.length - c ∧
    ∀ j, j < min (c + 20) qs.length - c →
      ((qs.take (min (c + 20) qs.length)).drop c)[j]? = qs[c + j]? := by
  have hread : readProgressVal (some (toString c)) = (c : Int) := readProgressVal_repr c
  have hlt : readProgressVal (some (toString c)) < (qs.length : Int) := by
    rw [hread]; omega
  have hmin : min ((c : Int) + 20) (qs.length : Int) = ((min (c + 20) qs.length : Nat) : Int) := by
    push_cast; ring_nf
  have hto : toString (((min (c + 20) qs.length : Nat) : Int)) = toString ((min (c + 20) qs.length : Nat)) := by
    rfl
  refine ⟨?_, ?_, ?_, ?_⟩
  · rw [runQ_batch t qs (some (toString c)) o ht hlt, hread, hmin, hto]
  · exact pySlice_nonneg qs c (min (c + 20) qs.length) (Nat.min_le_right _ _)
  · rw [List.length_drop, List.length_take, Nat.min_eq_left (Nat.min_le_right _ _)]
  · intro j hj
    rw [List.getElem?_drop, List.getElem?_take_of_lt (by omega)]

/-- C1 witness: cursor file `"40"`, 90 questions: post-run cursor file is
`"60"`, the batch has 20 questions and starts at index 40. -/
theorem batch_window_correct_witness :
    (runQ (some "T") (List.replicate 90 (⟨"Q", ["w", "x", "y", "z"], 0⟩ : Question))
        (some "40") noFail).2 = some "60" ∧
    ((((List.replicate 90 (⟨"Q", ["w", "x", "y", "z"], 0⟩ : Question)).take 60).drop 40).length = 20) := by
  have h := batch_window_correct (List.replicate 90 (⟨"Q", ["w", "x", "y", "z"], 0⟩ : Question))
    40 "T" noFail (by decide) (by simp)
  constructor
  · have h2 := congrArg Prod.snd h.1
    simpa using h2
  · simpa using h.2.2.1

/-- C2: in a batch run, which sends are attempted (the trace with success
flags erased) is the same under any failure oracle as under the no-failure
oracle — every (recipient, question) send of the batch is attempted no
matter which earlier sends raised — and the cursor file is still updated to
the batch end `min (cursor+20) total` regardless of failures. -/
theorem send_failures_do_not_block (qs : List Question) (pf : Option String) (t : String)
    (o : FailOracle) (ht : t ≠ "") (hlt : readProgressVal pf < (qs.length : Int)) :
    (runQ (some t) qs pf o).1.map eraseOk = (runQ (some t) qs pf noFail).1.map eraseOk ∧
    (runQ (some t) qs pf o).2 =
      some (toString (min (readProgressVal pf + 20) (qs.length : Int))) := by
  rw [runQ_batch t qs pf o ht hlt, runQ_batch t qs pf noFail ht hlt]
  refine ⟨?_, rfl⟩
  simp only [List.map_append]
  congr 1
  congr 1
  unfold batchPolls
  rw [List.map_flatMap, List.map_flatMap]
  congr 1
  funext a
  rw [List.map_map, List.map_map]
  apply List.map_congr_left
  intro p _
  simp [Function.comp, eraseOk]

/-- C2 witness: with a single question, a fresh cursor and an oracle under
which every API call raises, the attempted sends match the no-failure run
and the cursor still advances to 1. -/
theorem send_failures_do_not_block_witness :
    (runQ (some "T") [⟨"Q", ["1", "2", "3", "4"], 1⟩] none
        ⟨fun _ _ => true, fun _ => true⟩).1.map eraseOk =
      (runQ (some "T") [⟨"Q", ["1", "2", "3", "4"], 1⟩] none noFail).1.map eraseOk ∧
    (runQ (some "T") [⟨"Q", ["1", "2", "3", "4"], 1⟩] none
        ⟨fun _ _ => true, fun _ => true⟩).2 = some "1" := by
  have h := send_failures_do_not_block [⟨"Q", ["1", "2", "3", "4"], 1⟩] none "T"
    ⟨fun _ _ => true, fun _ => true⟩ (by decide) (by decide)
  exact ⟨h.1, by simpa using h.2⟩

/-- C3 counterexample: with an empty question set (total = 0) and a cursor
file containing `"9999"`, the run starts with cursor 9999 ≥ total, leaves
the file untouched, and the persisted cursor value 9999 violates
`v ≤ total_question_count`. -/
theorem cursor_invariant_cex :
    (([] : List Question).length : Int) ≤ readProgressVal (some "9999") ∧
    (runQ (some "T") ([] : List Question) (some "9999") noFail).2 = some "9999" ∧
    ¬(readProgressVal (runQ (some "T") ([] : List Question) (some "9999") noFail).2 ≤
        (([] : List Question).length : Int)) := by
  refine ⟨by decide, rfl, by decide⟩

/-- C3 amended: the bound `0 ≤ v ≤ total` on the persisted cursor value `v`
holds at the end of every run — including a run that starts with
cursor ≥ total, which leaves the cursor file untouched — provided the
initial persisted cursor value already lies in `[0, total]`; for arbitrary
initial cursor-file content the bound can fail, since the cursor-≥-total
branch does not rewrite the file (see the counterexample). -/
theorem cursor_invariant_preserved (token : Option String) (qs : List Question)
    (pf : Option String) (o : FailOracle)
    (h0 : 0 ≤ readProgressVal pf) (h1 : readProgressVal pf ≤ (qs.length : Int)) :
    0 ≤ readProgressVal (runQ token qs pf o).2 ∧
    readProgressVal (runQ token qs pf o).2 ≤ (qs.length : Int) := by
  unfold runQ
  by_cases htf : tokenFalsy token = true
  · simp only [htf, if_true]
    exact ⟨h0, h1⟩
  · have htf2 : tokenFalsy token = false := by
      cases h : tokenFalsy token
      · rfl
      · exact absurd h htf
    rw [htf2]
    simp only [Bool.false_eq_true, if_false]
    by_cases hle : (qs.length : Int) ≤ readProgressVal pf
    · simp only [hle, if_true]
      exact ⟨h0, h1⟩
    · simp only [hle, if_false]
      have he : 0 ≤ min (readProgressVal pf + (QUESTIONS_PER_DAY : Int)) (qs.length : Int) := by
        simp only [QUESTIONS_PER_DAY]
        omega
      rw [readProgressVal_toString_int _ he]
      constructor
      · exact he
      · exact min_le_right _ _

/-- C3 amended, witness: empty question set, absent cursor file (value 0):
the persisted value after the run is within `[0, 0]`. -/
theorem cursor_invariant_preserved_witness :
    0 ≤ readProgressVal (runQ (some "T") ([] : List Question) none noFail).2 ∧
    readProgressVal (runQ (some "T") ([] : List Question) none noFail).2 ≤
      (([] : List Question).length : Int) := by
  exact cursor_invariant_preserved (some "T") [] none noFail (by decide) (by decide)

/-- C4: when the starting cursor is ≥ the total question count, the run
performs the two file reads and then exactly one fixed completion text
message per recipient: no quiz poll is sent, the progress file is not
written, and its state (including absence) is unchanged. -/
theorem completed_run_frame (t : String) (qs : List Question) (pf : Option String)
    (o : FailOracle) (ht : t ≠ "") (hge : (qs.length : Int) ≤ readProgressVal pf) :
    runQ (some t) qs pf o =
      ([.readQuestionsFile, .readProgressFile] ++
        CHAT_IDS.map (fun chat_id => .sendMessage chat_id completionText (!o.msgFails chat_id)),
        pf) ∧
    (runQ (some t) qs pf o).1.filter Effect.isPoll = [] ∧
    (runQ (some t) qs pf o).1.filter Effect.isWrite = [] ∧
    (∀ chat ∈ CHAT_IDS,
      ((runQ (some t) qs pf o).1.filter (isCompletionTo chat)).length = 1) ∧
    (runQ (some t) qs pf o).2 = pf := by
  have htf : tokenFalsy (some t) = false := by simp [tokenFalsy, ht]
  have hmain : runQ (some t) qs pf o =
      ([.readQuestionsFile, .readProgressFile] ++
        CHAT_IDS.map (fun chat_id => .sendMessage chat_id completionText (!o.msgFails chat_id)),
        pf) := by
    unfold runQ
    rw [htf]
    simp only [Bool.false_eq_true, if_false, hge, if_true]
  refine ⟨hmain, ?_, ?_, ?_, by rw [hmain]⟩
  · rw [hmain]
    simp [CHAT_IDS, Effect.isPoll]
  · rw [hmain]
    simp [CHAT_IDS, Effect.isWrite]
  · intro chat hchat
    rw [hmain]
    simp only [CHAT_IDS, List.mem_cons, List.not_mem_nil, or_false] at hchat
    rcases hchat with rfl | rfl <;>
      simp [CHAT_IDS, isCompletionTo, List.filter]

/-- C4 witness: empty question set and absent cursor file (cursor 0 ≥ 0):
no polls, no write, one completion message per recipient, file still
absent. -/
theorem completed_run_frame_witness :
    (runQ (some "T") ([] : List Question) none noFail).1.filter Effect.isPoll = [] ∧
    (∀ chat ∈ CHAT_IDS,
      ((runQ (some "T") ([] : List Question) none noFail).1.filter
        (isCompletionTo chat)).length = 1) ∧
    (runQ (some "T") ([] : List Question) none noFail).2 = none := by
  have h := completed_run_frame "T" [] none noFail (by decide) (by decide)
  exact ⟨h.2.1, h.2.2.2.1, h.2.2.2.2⟩

/-- C7: when the token environment variable is absent or empty, the run
performs no effect at all — no file read, no API call, no write — and the
progress file is unchanged. -/
theorem missing_token_no_side_effects (token : Option String) (content : String)
    (pf : Option String) (o : FailOracle) (h : token = none ∨ token = some "") :
    run token content pf o = ([], pf) := by
  rcases h with rfl | rfl <;> rfl

/-- C7 witness: absent token with nonempty files: the trace is empty and
the progress file keeps its content. -/
theorem missing_token_no_side_effects_witness :
    run none "Q\na\nb\nc\nd\nAnswer: a" (some "17") noFail = ([], some "17") :=
  missing_token_no_side_effects none "Q\na\nb\nc\nd\nAnswer: a" (some "17") noFail (Or.inl rfl)

/-! ### Facts about the answer-token matcher -/

theorem matchAnswerAt_range (cs : List Char) (ch : Char) (h : matchAnswerAt cs = some ch) :
    'a' ≤ ch ∧ ch ≤ 'd' := by
  unfold matchAnswerAt at h
  split at h
  · exact Option.noConfusion h
  · split at h
    · exact Option.noConfusion h
    · split at h
      next hc =>
        cases h
        exact hc
      next hc => exact Option.noConfusion h

theorem findAnswerAux_range (cs : List Char) (ch : Char) (h : findAnswerAux cs = some ch) :
    'a' ≤ ch ∧ ch ≤ 'd' := by
  induction cs with
  | nil => exact matchAnswerAt_range [] ch h
  | cons x xs ih =>
    rw [findAnswerAux] at h
    split at h
    next r hm =>
      cases h
      exact matchAnswerAt_range _ _ hm
    next hm => exact ih h

theorem matchAnswer_range (s : String) (ch : Char) (h : matchAnswer s = some ch) :
    'a' ≤ ch ∧ ch ≤ 'd' :=
  findAnswerAux_range s.data ch h

theorem answer_index_le_three (ch : Char) (h : 'a' ≤ ch ∧ ch ≤ 'd') :
    ch.toNat - 'a'.toNat ≤ 3 := by
  have g1 : 'a'.toNat ≤ ch.toNat := h.1
  have g2 : ch.toNat ≤ 'd'.toNat := h.2
  have e1 : 'a'.toNat = 97 := rfl
  have e2 : 'd'.toNat = 100 := rfl
  omega

/-! ### C5, C6: the per-block parser -/

/-- C5: a well-formed block — a prompt line, exactly four option lines and a
final line whose answer token carries letter `ch` (found case-insensitively)
— parses to a record keeping the prompt, the four option lines with any
leading `a)`-`d)` label stripped, and `correct_index` equal to the letter's
alphabet position (`a`→0, …, `d`→3, i.e. `ch - 'a'`). -/
theorem wellformed_block_parsed (p o1 o2 o3 o4 a : String) (ch : Char)
    (h : matchAnswer a = some ch) :
    parseBlockLines [p, o1, o2, o3, o4, a] =
      some ⟨p, [stripLabel o1, stripLabel o2, stripLabel o3, stripLabel o4],
        ch.toNat - 'a'.toNat⟩ := by
  unfold parseBlockLines
  simp only [List.length_cons, List.length_nil, List.getLastD, List.headD]
  norm_num
  rw [h]

/-- C5 witness: the spec's example block with `Answer: c` parses to
`correct_index = 2` with labels stripped. -/
theorem wellformed_block_parsed_witness :
    parseBlockLines ["Who?", "a) x", "b) y", "c) z", "d) w", "Answer: c"] =
      some ⟨"Who?", ["x", "y", "z", "w"], 2⟩ := by
  have h := wellformed_block_parsed "Who?" "a) x" "b) y" "c) z" "d) w" "Answer: c" 'c'
    (by decide)
  rw [h]
  decide

theorem parseBlockLines_none_iff (lines : List String) :
    parseBlockLines lines = none ↔
      lines.length < 4 ∨ matchAnswer (lines.getLastD "") = none ∨
        ((lines.drop 1).dropLast).length ≠ 4 := by
  by_cases h4 : lines.length < 4
  · simp [parseBlockLines, h4]
  · cases hm : matchAnswer (lines.getLastD "") with
    | none =>
      have hm2 : matchAnswer (lines.getLast?.getD "") = none := by
        rw [← List.getLastD_eq_getLast?]; exact hm
      have hnone : parseBlockLines lines = none := by
        simp [parseBlockLines, h4, hm2]
      exact iff_of_true hnone (Or.inr (Or.inl rfl))
    | some ch =>
      have hm2 : matchAnswer (lines.getLast?.getD "") = some ch := by
        rw [← List.getLastD_eq_getLast?]; exact hm
      have heq : parseBlockLines lines =
          if (((lines.drop 1).dropLast).map stripLabel).length ≠ 4 then none
          else some ⟨lines.headD "", ((lines.drop 1).dropLast).map stripLabel,
            ch.toNat - 'a'.toNat⟩ := by
        simp [parseBlockLines, h4, hm2]
      rw [heq]
      by_cases hop : ((lines.drop 1).dropLast).length ≠ 4
      · have hop' : (((lines.drop 1).dropLast).map stripLabel).length ≠ 4 := by
          rw [List.length_map]; exact hop
        rw [if_pos hop']
        exact iff_of_true rfl (Or.inr (Or.inr hop))
      · push_neg at hop
        have hop' : ¬((((lines.drop 1).dropLast).map stripLabel).length ≠ 4) := by
          rw [List.length_map]; omega
        rw [if_neg hop']
        refine iff_of_false (fun hcontra => Option.noConfusion hcontra) ?_
        rintro (hA | hB | hC)
        · exact h4 hA
        · exact Option.noConfusion hB
        · exact hC hop

theorem parseBlockLines_some (lines : List String) (q : Question)
    (h : parseBlockLines lines = some q) :
    q.options.length = 4 ∧ q.correct_index ≤ 3 := by
  by_cases h4 : lines.length < 4
  · simp [parseBlockLines, h4] at h
  · cases hm : matchAnswer (lines.getLastD "") with
    | none =>
      have hm2 : matchAnswer (lines.getLast?.getD "") = none := by
        rw [← List.getLastD_eq_getLast?]; exact hm
      have hnone : parseBlockLines lines = none := by
        simp [parseBlockLines, h4, hm2]
      rw [hnone] at h
      exact Option.noConfusion h
    | some ch =>
      have hm2 : matchAnswer (lines.getLast?.getD "") = some ch := by
        rw [← List.getLastD_eq_getLast?]; exact hm
      have heq : parseBlockLines lines =
          if (((lines.drop 1).dropLast).map stripLabel).length ≠ 4 then none
          else some ⟨lines.headD "", ((lines.drop 1).dropLast).map stripLabel,
            ch.toNat - 'a'.toNat⟩ := by
        simp [parseBlockLines, h4, hm2]
      rw [heq] at h
      by_cases hop : (((lines.drop 1).dropLast).map stripLabel).length ≠ 4
      · rw [if_pos hop] at h
        exact Option.noConfusion h
      · rw [if_neg hop] at h
        injection h with h2
        subst h2
        refine ⟨?_, answer_index_le_three ch (matchAnswer_range _ _ hm)⟩
        push_neg at hop
        exact hop

/-- C6: a block is skipped (contributes no record to the parsed list)
exactly when it has fewer than 4 non-blank lines, or its last non-blank
line has no recognizable answer token with a letter `a`-`d`, or the lines
between the prompt and the answer line do not number exactly 4; and every
record that is produced has exactly 4 options and a correct index in
`[0, 3]`. -/
theorem block_rejected_iff (b : String) :
    (parseBlock b = none ↔
      (cleanLines b).length < 4 ∨ matchAnswer ((cleanLines b).getLastD "") = none ∨
        (((cleanLines b).drop 1).dropLast).length ≠ 4) ∧
    ∀ q, parseBlock b = some q → q.options.length = 4 ∧ q.correct_index ≤ 3 := by
  constructor
  · exact parseBlockLines_none_iff (cleanLines b)
  · intro q h
    exact parseBlockLines_some (cleanLines b) q h

/-- C6 witness: a block with only 3 options is dropped (the spec's
example), and a block whose answer letter is `e` is dropped. -/
theorem block_rejected_iff_witness :
    parseBlock "Q\na) 1\nb) 2\nc) 3\nAnswer: b" = none ∧
    parseBlock "Q\na) 1\nb) 2\nc) 3\nd) 4\nAnswer: e" = none := by
  constructor
  · exact (block_rejected_iff "Q\na) 1\nb) 2\nc) 3\nAnswer: b").1.mpr
      (Or.inr (Or.inr (by decide)))
  · exact (block_rejected_iff "Q\na) 1\nb) 2\nc) 3\nd) 4\nAnswer: e").1.mpr
      (Or.inr (Or.inl (by decide)))

/-! ### C8: the parser is total and raises no exception -/

theorem get?_zero_headD (l : List String) (h : l ≠ []) : l.get? 0 = some (l.headD "") := by
  cases l with
  | nil => exact absurd rfl h
  | cons a as => rfl

theorem get?_last_getLastD (l : List String) (h : l ≠ []) :
    l.get? (l.length - 1) = some (l.getLastD "") := by
  rw [← List.getLast?_eq_get?, List.getLastD_eq_getLast?]
  obtain ⟨x, hx⟩ := Option.isSome_iff_exists.mp (List.getLast?_isSome.mpr h)
  rw [hx]
  rfl

theorem parseBlockE_ok (b : String) : parseBlockE b = Except.ok (parseBlock b) := by
  unfold parseBlockE parseBlock parseBlockLines
  by_cases h4 : (cleanLines b).length < 4
  · simp [h4]
  · simp only [h4, if_false]
    have hne : cleanLines b ≠ [] := by
      intro hnil
      rw [hnil] at h4
      exact h4 (by simp)
    rw [get?_zero_headD _ hne, get?_last_getLastD _ hne]
    cases hm : matchAnswer ((cleanLines b).getLastD "") with
    | none =>
      have hm2 : matchAnswer ((cleanLines b).getLast?.getD "") = none := by
        rw [← List.getLastD_eq_getLast?]; exact hm
      simp [hm2]
    | some ch =>
      have hm2 : matchAnswer ((cleanLines b).getLast?.getD "") = some ch := by
        rw [← List.getLastD_eq_getLast?]; exact hm
      by_cases h6 : (cleanLines b).length = 6
      · simp [hm2, h6]
      · simp [hm2, h6]

theorem parseBlocksE_ok (bs : List String) :
    parseBlocksE bs = Except.ok (bs.filterMap parseBlock) := by
  induction bs with
  | nil => rfl
  | cons b bs ih =>
    unfold parseBlocksE
    rw [parseBlockE_ok b]
    cases hp : parseBlock b with
    | none => simp [List.filterMap_cons, hp, ih]
    | some q => simp [List.filterMap_cons, hp, ih]

/-- C8: for every content of the question file the parser returns a
result list and never propagates an exception: the version with Python's
fallible list subscripts made explicit always returns `ok`, with the same
records the total parser produces. -/
theorem parse_never_raises (content : String) :
    parse_mcqsE content = Except.ok (parse_mcqs content) := by
  unfold parse_mcqsE parse_mcqs
  exact parseBlocksE_ok (splitBlocks content)

/-! ### C9: the progress reader and negative cursors -/

theorem readProgressVal_of_pyInt (s : String) (n : Int) (h : pyInt (pyStrip s) = some n) :
    readProgressVal (some s) = n := by
  rw [readProgressVal_some]
  have hne : ¬(pyStrip s = "") := by
    intro he
    rw [he] at h
    exact Option.noConfusion h
  rw [if_neg hne, h]

/-- C9: the progress reader yields 0 exactly for a missing file, empty
stripped content or content `int()` rejects; any string parsing as an
integer — negative ones included — is used as the cursor unchanged, and for
a parseable cursor `n < total` (even negative) the batch sent is
`all_questions[n : min(n+20, total)]` under Python slice semantics
(`pySlice`), not a window starting at index `n`. -/
theorem progress_reader_negative_cursor :
    readProgressVal none = 0 ∧
    (∀ s, pyStrip s = "" → readProgressVal (some s) = 0) ∧
    (∀ s, pyInt (pyStrip s) = none → readProgressVal (some s) = 0) ∧
    (∀ s n, pyInt (pyStrip s) = some n → readProgressVal (some s) = n) ∧
    pyInt "-5" = some (-5) ∧
    (∀ (t : String) (qs : List Question) (s : String) (n : Int) (o : FailOracle),
      t ≠ "" → pyInt (pyStrip s) = some n → n < (qs.length : Int) →
      runQ (some t) qs (some s) o =
        ([.readQuestionsFile, .readProgressFile] ++
          batchPolls qs n (min (n + 20) (qs.length : Int)) o ++
          [.writeProgress (toString (min (n + 20) (qs.length : Int)))],
          some (toString (min (n + 20) (qs.length : Int))))) := by
  refine ⟨rfl, ?_, ?_, readProgressVal_of_pyInt, by decide, ?_⟩
  · intro s h
    rw [readProgressVal_some, if_pos h]
  · intro s h
    rw [readProgressVal_some]
    by_cases he : pyStrip s = ""
    · rw [if_pos he]
    · rw [if_neg he, h]
  · intro t qs s n o ht hn hlt
    have hread : readProgressVal (some s) = n := readProgressVal_of_pyInt s n hn
    have hlt' : readProgressVal (some s) < (qs.length : Int) := by rw [hread]; exact hlt
    rw [runQ_batch t qs (some s) o ht hlt', hread]

/-- C9 witness: cursor file `"-5"` with 20 questions: the cursor reads
back as −5, the batch `[-5 : 15]` is empty under Python slice semantics
(index −5 resolves to 15), so no poll is sent, yet the cursor is rewritten
to 15. -/
theorem progress_reader_negative_cursor_witness :
    readProgressVal (some "-5") = -5 ∧
    (runQ (some "T") (List.replicate 20 (⟨"Q", ["1", "2", "3", "4"], 0⟩ : Question))
        (some "-5") noFail).1.filter Effect.isPoll = [] ∧
    (runQ (some "T") (List.replicate 20 (⟨"Q", ["1", "2", "3", "4"], 0⟩ : Question))
        (some "-5") noFail).2 = some "15" := by
  have h := progress_reader_negative_cursor
  have hread := h.2.2.2.1 "-5" (-5) (by decide)
  have hrun := h.2.2.2.2.2 "T" (List.replicate 20 (⟨"Q", ["1", "2", "3", "4"], 0⟩ : Question))
    "-5" (-5) noFail (by decide) (by decide) (by decide)
  refine ⟨hread, ?_, ?_⟩
  · have h1 := congrArg Prod.fst hrun
    rw [h1]
    decide
  · have h2 := congrArg Prod.snd hrun
    rw [h2]
    decide

/-! ### C10: the answer token is found by case-insensitive substring
search, leftmost occurrence first -/

theorem stripCI_of_map_lower (hdr : List Char) :
    ∀ (pat tail : List Char), hdr.map lowerChar = pat →
      stripCI pat (hdr ++ tail) = some tail := by
  induction hdr with
  | nil =>
    intro pat tail h
    subst h
    rfl
  | cons c cs ih =>
    intro pat tail h
    subst h
    show stripCI (lowerChar c :: cs.map lowerChar) (c :: (cs ++ tail)) = some tail
    rw [show stripCI (lowerChar c :: cs.map lowerChar) (c :: (cs ++ tail)) =
        stripCI (cs.map lowerChar) (cs ++ tail) from by simp [stripCI]]
    exact ih _ _ rfl

theorem skipWs_ws_append (ws : List Char) (u : Char) (rest : List Char)
    (hws : ∀ x ∈ ws, isSpace x = true) (hu : isSpace u = false) :
    skipWs (ws ++ u :: rest) = u :: rest := by
  induction ws with
  | nil => simp [skipWs, hu]
  | cons w ws ih =>
    have hw : isSpace w = true := hws w (by simp)
    simp only [List.cons_append, skipWs, hw, if_true]
    exact ih (fun x hx => hws x (by simp [hx]))

theorem not_space_of_letter (c : Char) (h : 'a' ≤ lowerChar c ∧ lowerChar c ≤ 'd') :
    isSpace c = false := by
  unfold lowerChar at h
  by_cases hu : 'A' ≤ c ∧ c ≤ 'Z'
  · have g1 : 'A'.toNat ≤ c.toNat := hu.1
    have g2 : c.toNat ≤ 'Z'.toNat := hu.2
    have e1 : 'A'.toNat = 65 := rfl
    have e2 : 'Z'.toNat = 90 := rfl
    simp only [isSpace, Bool.or_eq_false_iff, decide_eq_false_iff_not]
    refine ⟨⟨⟨⟨⟨?_, ?_⟩, ?_⟩, ?_⟩, ?_⟩, ?_⟩ <;> (rintro rfl; revert g1 g2; decide)
  · rw [if_neg hu] at h
    have g1 : 'a'.toNat ≤ c.toNat := h.1
    have g2 : c.toNat ≤ 'd'.toNat := h.2
    have e1 : 'a'.toNat = 97 := rfl
    have e2 : 'd'.toNat = 100 := rfl
    simp only [isSpace, Bool.or_eq_false_iff, decide_eq_false_iff_not]
    refine ⟨⟨⟨⟨⟨?_, ?_⟩, ?_⟩, ?_⟩, ?_⟩, ?_⟩ <;> (rintro rfl; revert g1 g2; decide)

theorem matchAnswerAt_of_parts (hdr ws : List Char) (uc : Char) (rest : List Char)
    (hh : hdr.map lowerChar = ['a', 'n', 's', 'w', 'e', 'r', ':'])
    (hws : ∀ x ∈ ws, isSpace x = true)
    (hu : 'a' ≤ lowerChar uc ∧ lowerChar uc ≤ 'd') :
    matchAnswerAt (hdr ++ ws ++ uc :: rest) = some (lowerChar uc) := by
  unfold matchAnswerAt
  rw [List.append_assoc, stripCI_of_map_lower hdr _ _ hh]
  show (match skipWs (ws ++ uc :: rest) with
      | [] => (none : Option Char)
      | c :: _ => if 'a' ≤ lowerChar c ∧ lowerChar c ≤ 'd' then some (lowerChar c) else none) =
    some (lowerChar uc)
  rw [skipWs_ws_append ws uc rest hws (not_space_of_letter uc hu)]
  show (if 'a' ≤ lowerChar uc ∧ lowerChar uc ≤ 'd' then some (lowerChar uc) else none) =
    some (lowerChar uc)
  rw [if_pos hu]

theorem findAnswerAux_iff (cs : List Char) (c : Char) :
    findAnswerAux cs = some c ↔
      ∃ p, matchAnswerAt (cs.drop p) = some c ∧
        ∀ q, q < p → matchAnswerAt (cs.drop q) = none := by
  induction cs with
  | nil =>
    constructor
    · intro h
      exact ⟨0, h, fun q hq => absurd hq (Nat.not_lt_zero q)⟩
    · rintro ⟨p, hp, _⟩
      rw [List.drop_nil] at hp
      exact hp
  | cons x xs ih =>
    cases hm : matchAnswerAt (x :: xs) with
    | some r =>
      simp only [findAnswerAux, hm]
      constructor
      · intro h
        exact ⟨0, hm.trans h, fun q hq => absurd hq (Nat.not_lt_zero q)⟩
      · rintro ⟨p, hp, hq⟩
        cases p with
        | zero =>
          rw [List.drop_zero] at hp
          exact hm.symm.trans hp
        | succ p' =>
          have h0 := hq 0 (Nat.succ_pos p')
          rw [List.drop_zero] at h0
          exact Option.noConfusion (hm.symm.trans h0)
    | none =>
      simp only [findAnswerAux, hm]
      rw [ih]
      constructor
      · rintro ⟨p, hp, hq⟩
        refine ⟨p + 1, ?_, ?_⟩
        · rw [List.drop_succ_cons]
          exact hp
        · intro q hq'
          cases q with
          | zero =>
            rw [List.drop_zero]
            exact hm
          | succ q' =>
            rw [List.drop_succ_cons]
            exact hq q' (by omega)
      · rintro ⟨p, hp, hq⟩
        cases p with
        | zero =>
          rw [List.drop_zero, hm] at hp
          exact absurd hp (by simp)
        | succ p' =>
          refine ⟨p', ?_, ?_⟩
          · rw [List.drop_succ_cons] at hp
            exact hp
          · intro q hq'
            have hq2 := hq (q + 1) (by omega)
            rw [List.drop_succ_cons] at hq2
            exact hq2

theorem findAnswerAux_isSome_of (cs : List Char) :
    ∀ (p : Nat) (c : Char), matchAnswerAt (cs.drop p) = some c →
      (findAnswerAux cs).isSome := by
  induction cs with
  | nil =>
    intro p c h
    rw [List.drop_nil] at h
    simp [findAnswerAux, h]
  | cons x xs ih =>
    intro p c h
    cases hm : matchAnswerAt (x :: xs) with
    | some r => simp [findAnswerAux, hm]
    | none =>
      simp only [findAnswerAux, hm]
      cases p with
      | zero =>
        rw [List.drop_zero] at h
        rw [h] at hm
        exact Option.noConfusion hm
      | succ p' =>
        rw [List.drop_succ_cons] at h
        exact ih p' c h

/-- C10: the answer token is recognized by scanning the line left to right
(`re.search`): the scan returns letter `c` exactly when some position
matches `Answer:` (case-insensitively) followed by whitespace and a letter
`a`-`d` and every earlier position does not, so the first occurrence
determines the result; any such occurrence — with arbitrary text before and
after — makes the line accepted. -/
theorem answer_search_semantics :
    (∀ cs c, findAnswerAux cs = some c ↔
      ∃ p, matchAnswerAt (cs.drop p) = some c ∧
        ∀ q, q < p → matchAnswerAt (cs.drop q) = none) ∧
    (∀ hdr ws uc rest, hdr.map lowerChar = ['a', 'n', 's', 'w', 'e', 'r', ':'] →
      (∀ x ∈ ws, isSpace x = true) → ('a' ≤ lowerChar uc ∧ lowerChar uc ≤ 'd') →
      matchAnswerAt (hdr ++ ws ++ uc :: rest) = some (lowerChar uc)) ∧
    (∀ pre hdr ws uc rest, hdr.map lowerChar = ['a', 'n', 's', 'w', 'e', 'r', ':'] →
      (∀ x ∈ ws, isSpace x = true) → ('a' ≤ lowerChar uc ∧ lowerChar uc ≤ 'd') →
      (findAnswerAux (pre ++ (hdr ++ ws ++ uc :: rest))).isSome) := by
  refine ⟨findAnswerAux_iff, matchAnswerAt_of_parts, ?_⟩
  intro pre hdr ws uc rest hh hws hu
  apply findAnswerAux_isSome_of _ pre.length (lowerChar uc)
  rw [List.drop_left]
  exact matchAnswerAt_of_parts hdr ws uc rest hh hws hu

/-- C10 witness: `The Answer: b is correct` is accepted with letter `b`
found at the first matching position, and a mixed-case `ANSWER:` with
letter `D` surrounded by other text is accepted too. -/
theorem answer_search_semantics_witness :
    findAnswerAux (String.data "The Answer: b is correct") = some 'b' ∧
    (findAnswerAux (String.data "xANSWER:  D yz")).isSome := by
  constructor
  · exact (answer_search_semantics.1 (String.data "The Answer: b is correct") 'b').mpr
      ⟨4, by decide, by decide⟩
  · exact answer_search_semantics.2.2 (String.data "x") (String.data "ANSWER:")
      (String.data "  ") 'D' (String.data " yz") (by decide) (by decide) (by decide)

end Bot
